import Mathlib

/-!
Verification of the thermal-video-analyzer core engine
(`src/native/thermal_engine.cpp`, class `ThermalEngine`).

The C++ engine is shallowly embedded as executable Lean definitions:

* machine integers (`int`) become `ℤ`; `uint32_t` hash-map keys become `ℕ`
  (all keys produced by the source are 24-bit, far below `2^32`, and no
  arithmetic in the source can overflow them);
* `float`/`double` temperatures become `ℚ`;
* the nearest-neighbor scan's float comparisons `sqrtf d1 < sqrtf d2` and
  `sqrtf d < 10.0f` are embedded as comparisons of the exact integer
  squared distances (`d1 < d2`, `d < 100`).  This is faithful: squared RGB
  distances are integers `≤ 3·255² = 195075 < 2^24`, so `pow` and the sum
  are computed exactly in `float`, and the correctly rounded `sqrtf` is
  strictly monotone and injective on that integer range (consecutive
  integers there differ in `sqrt` by `≥ 1/(2·442)`, far above the ulp
  `≈ 2^-15` at magnitude `≤ 442`); finally `sqrtf d < 10.0f ↔ d < 100`
  because `sqrt 99 < 10 = sqrt 100` exactly;
* `std::string` becomes `List Char`; a text file's contents become
  `List (List Char)` (the list of its lines), and an unopenable file is
  `Option.none`;
* `cv::Mat` frames become an abstract pixel grid; an empty `cv::Mat` is
  `Option.none`;
* `cv::VideoCapture` becomes a decode oracle `ℤ → Option Frame` giving
  the result of `set(CAP_PROP_POS_FRAMES, n)` followed by `read`.
  Per the library's contract, `VideoCapture::read(OutputArray image)`
  releases `image` (leaves it empty) when no frame can be grabbed; the
  embedding of `getFrame` reflects that on the `currentFrame` member.
-/

/-! ## Calibration table and key packing -/

/-- One color→temperature table: the `std::unordered_map<uint32_t, float>
tempMapping` member.  Embedded as an association list with unique keys;
the iteration order of the C++ hash map is unspecified, so theorems about
the scan quantify over arbitrary list orders. -/
abbrev TempMap := List (ℕ × ℚ)

/-- `ThermalEngine::packRGB`: `(r << 16) | (g << 8) | b` (the C++ `|` is
left-associative). -/
def packRGB (r g b : ℕ) : ℕ :=
  ((r <<< 16) ||| (g <<< 8)) ||| b

/-- Red channel as recovered by the scan in `getPixelTemperature`:
`(mapKey >> 16) & 0xFF`. -/
def unpackR (k : ℕ) : ℕ := (k >>> 16) &&& 255

/-- Green channel as recovered by the scan: `(mapKey >> 8) & 0xFF`. -/
def unpackG (k : ℕ) : ℕ := (k >>> 8) &&& 255

/-- Blue channel as recovered by the scan: `mapKey & 0xFF`. -/
def unpackB (k : ℕ) : ℕ := k &&& 255

/-- `tempMapping[key] = temp` on the association-list embedding of the
hash map: overwrite the value if the key is present, append otherwise. -/
def insertTM : TempMap → ℕ → ℚ → TempMap
  | [], k, v => [(k, v)]
  | (k', v') :: rest, k, v =>
    if k' = k then (k', v) :: rest else (k', v') :: insertTM rest k v

/-! ## CSV parsing (`loadTempMapping`) -/

/-- Cell splitting: the `while (std::getline(ss, cell, ','))` loop.
`getline` consumes up to the delimiter and fails only when the stream is
already exhausted, so `"a,"` yields `["a"]` while `"a,,b"` yields
`["a", "", "b"]`. -/
def splitCellsGo : List Char → List Char → List (List Char)
  | [], acc => [acc.reverse]
  | c :: rest, acc =>
    if c = ',' then
      match rest with
      | [] => [acc.reverse]
      | _ => acc.reverse :: splitCellsGo rest []
    else splitCellsGo rest (c :: acc)

/-- Split one CSV line into cells; an empty line yields no cells (the
first `getline` fails at once). -/
def splitCells : List Char → List (List Char)
  | [] => []
  | c :: rest => splitCellsGo (c :: rest) []

/-- Digit-string value accumulator shared by the `stoi`/`stof` models. -/
def digitsVal (ds : List Char) : ℕ :=
  ds.foldl (fun n c => 10 * n + (c.toNat - 48)) 0

/-- `std::stoi`: skip whitespace, optional sign, then the longest digit
prefix; `none` models the `std::invalid_argument` throw when no digit is
found.  Trailing non-digit characters are ignored, as in the source
library. -/
def stoiModel (cs : List Char) : Option ℤ :=
  let cs := cs.dropWhile (fun c => c.isWhitespace)
  let p : ℤ × List Char :=
    match cs with
    | '-' :: rest => (-1, rest)
    | '+' :: rest => (1, rest)
    | _ => (1, cs)
  let digits := p.2.takeWhile Char.isDigit
  if digits = [] then none
  else some (p.1 * (digitsVal digits : ℤ))

/-- `std::stof` on the decimal forms that occur in calibration files:
sign, integer digits, optional `.` and fraction digits; `none` models the
throw when no digit at all is found.  (Exponent, hex, `inf`/`nan` forms
are not modelled; no claim depends on them.) -/
def stofModel (cs : List Char) : Option ℚ :=
  let cs := cs.dropWhile (fun c => c.isWhitespace)
  let p : ℚ × List Char :=
    match cs with
    | '-' :: rest => (-1, rest)
    | '+' :: rest => (1, rest)
    | _ => (1, cs)
  let intDigits := p.2.takeWhile Char.isDigit
  let rest := p.2.drop intDigits.length
  let fracDigits : List Char :=
    match rest with
    | '.' :: r => r.takeWhile Char.isDigit
    | _ => []
  if intDigits = [] ∧ fracDigits = [] then none
  else
    some (p.1 * ((digitsVal intDigits : ℚ) +
      (digitsVal fracDigits : ℚ) / (10 : ℚ) ^ fracDigits.length))

/-- Parse one data row of the CSV as the body of the `while` loop in
`loadTempMapping` does: split into cells, require at least 6 cells
(`X,Y,R,G,B,Temperature_C`), parse cells 2–4 as integers and cell 5 as a
float (any parse throw skips the row), validate the RGB range, and
produce the packed key and temperature that `tempMapping[key] = temp`
would store. -/
def parseRow (line : List Char) : Option (ℕ × ℚ) :=
  let row := splitCells line
  if 6 ≤ row.length then
    match stoiModel (row.getD 2 []), stoiModel (row.getD 3 []),
        stoiModel (row.getD 4 []), stofModel (row.getD 5 []) with
    | some r, some g, some b, some temp =>
      if 0 ≤ r ∧ r ≤ 255 ∧ 0 ≤ g ∧ g ≤ 255 ∧ 0 ≤ b ∧ b ≤ 255 then
        some (packRGB r.toNat g.toNat b.toNat, temp)
      else none
    | _, _, _, _ => none
  else none

/-! ## Video frames and engine state -/

/-- A decoded `cv::Mat` frame: an abstract pixel grid.  `px y x` is the
`cv::Vec3b` at `frame.at<cv::Vec3b>(y, x)`, i.e. the channel triple
`(bgr[0], bgr[1], bgr[2]) = (blue, green, red)`. -/
structure Frame where
  px : ℤ → ℤ → ℕ × ℕ × ℕ

/-- The opened `cv::VideoCapture`: a decode oracle.  `read n` is the
combined effect of `cap.set(cv::CAP_PROP_POS_FRAMES, n)` followed by
`cap.read(...)`: `some f` on success, `none` on decode failure. -/
structure CapModel where
  read : ℤ → Option Frame

/-- The private state of a `ThermalEngine` instance.  `cap = none` models
`!cap.isOpened()`; `currentFrame = none` models an empty `cv::Mat`. -/
structure Engine where
  cap : Option CapModel
  tempMapping : TempMap
  currentFrame : Option Frame
  totalFrames : ℤ
  fps : ℚ
  frameWidth : ℤ
  frameHeight : ℤ
  lastFrameNumber : ℤ

/-- One iteration of the row loop in `loadTempMapping`, acting on the
`(tempMapping, count)` pair: a row that parses is written into the map
(`tempMapping[key] = temp`) and counted, any other row is skipped. -/
def loadRowStep (p : TempMap × ℕ) (line : List Char) : TempMap × ℕ :=
  match parseRow line with
  | some kv => (insertTM p.1 kv.1 kv.2, p.2 + 1)
  | none => p

/-- `ThermalEngine::loadTempMapping`.  The file is `none` when it cannot
be opened, otherwise the list of its lines.  The first line is skipped as
a header; each remaining row is parsed by `parseRow` and inserted into
the member `tempMapping` (which the source never clears), counting
successful inserts; the call succeeds iff the count is positive. -/
def loadTempMapping (s : Engine) (file : Option (List (List Char))) :
    Engine × Bool :=
  match file with
  | none => (s, false)
  | some lines =>
    let body := lines.drop 1
    let r := body.foldl loadRowStep (s.tempMapping, 0)
    ({ s with tempMapping := r.1 }, decide (0 < r.2))

/-- The temperature of the last row of `body` that parses to the packed
key `k`, if any: the value the file itself defines for color key `k`
(later rows overwrite earlier ones). -/
def lastParsed : List (List Char) → ℕ → Option ℚ
  | [], _ => none
  | line :: rest, k =>
    match lastParsed rest k with
    | some v => some v
    | none =>
      match parseRow line with
      | some kv => if kv.1 = k then some kv.2 else none
      | none => none

/-- `ThermalEngine::getFrame`.  Clamps the index, serves the cached
`currentFrame` when the clamped index equals `lastFrameNumber`, otherwise
seeks and decodes.  On decode failure the source's
`cap.read(currentFrame)` empties the `currentFrame` member (the library
releases the output array when nothing is grabbed) and the function
returns an empty frame without updating `lastFrameNumber`. -/
def getFrame (s : Engine) (frameNumber : ℤ) : Engine × Option Frame :=
  match s.cap with
  | none => (s, none)
  | some cap =>
    let n := max 0 (min frameNumber (s.totalFrames - 1))
    if n = s.lastFrameNumber then (s, s.currentFrame)
    else
      match cap.read n with
      | none => ({ s with currentFrame := none }, none)
      | some f =>
        ({ s with currentFrame := some f, lastFrameNumber := n }, some f)

/-! ## Color resolution (`getPixelTemperature`) -/

/-- Exact integer square of the RGB Euclidean distance between the query
`(r, g, b)` and the table key `k`, as unpacked by the scan.  The C++
computes `sqrtf` of this value in `float`; see the file header for why
comparing squares embeds those float comparisons exactly. -/
def dist2 (r g b : ℤ) (k : ℕ) : ℤ :=
  (r - (unpackR k : ℤ)) ^ 2 + (g - (unpackG k : ℤ)) ^ 2 +
    (b - (unpackB k : ℤ)) ^ 2

/-- Exact integer square of the RGB Euclidean distance between two table
keys (both unpacked as the scan unpacks them); used to state the
pairwise-separation hypothesis of P3. -/
def entryDist2 (k1 k2 : ℕ) : ℤ :=
  ((unpackR k1 : ℤ) - (unpackR k2 : ℤ)) ^ 2 +
    ((unpackG k1 : ℤ) - (unpackG k2 : ℤ)) ^ 2 +
    ((unpackB k1 : ℤ) - (unpackB k2 : ℤ)) ^ 2

/-- The nearest-neighbor `for` loop of `getPixelTemperature`, in (an
arbitrary) iteration order of the hash map.  `minD = none` is the initial
`minDistance = FLT_MAX` (every candidate distance beats it); `closest`
is `closestTemp`, initially `-1.0f`.  A candidate strictly below the
current minimum updates both, and if its squared distance is `< 100`
(float distance `< 10.0f`) the loop breaks at once. -/
def nnScan (r g b : ℤ) : TempMap → Option ℤ → ℚ → ℚ
  | [], _, closest => closest
  | (k, t) :: rest, minD, closest =>
    let d := dist2 r g b k
    match minD with
    | none => if d < 100 then t else nnScan r g b rest (some d) t
    | some m =>
      if d < m then
        if d < 100 then t else nnScan r g b rest (some d) t
      else nnScan r g b rest minD closest

/-- `ThermalEngine::getPixelTemperature`: exact lookup of the packed key,
falling back to the nearest-neighbor scan; `-1` is the absent sentinel
(`closestTemp`'s initial value, returned unchanged when the table is
empty).  The in-repo callers only pass channel values in `[0, 255]`, so
the channels are embedded as `ℕ`. -/
def getPixelTemperature (m : TempMap) (r g b : ℕ) : ℚ :=
  match m.lookup (packRGB r g b) with
  | some t => t
  | none => nnScan (r : ℤ) (g : ℤ) (b : ℤ) m none (-1)

/-! ## Line rasterization (`getLinePixels`) -/

/-- The `while (true)` Bresenham loop of `ThermalEngine::getLinePixels`,
with explicit fuel.  Each iteration emits the current point if it lies in
`[0, fW) × [0, fH)`, stops after processing the point equal to `(x2, y2)`,
and otherwise advances by the standard decision on `e2 = 2 * err`.
`none` means the fuel ran out before the endpoint was processed. -/
def bresLoop (fW fH x2 y2 sx sy dx dy : ℤ) :
    ℕ → ℤ → ℤ → ℤ → Option (List (ℤ × ℤ))
  | 0, _, _, _ => none
  | fuel + 1, x, y, err =>
    let here : List (ℤ × ℤ) :=
      if 0 ≤ x ∧ x < fW ∧ 0 ≤ y ∧ y < fH then [(x, y)] else []
    if x = x2 ∧ y = y2 then some here
    else
      let e2 := 2 * err
      let x' := if e2 > -dy then x + sx else x
      let errx := if e2 > -dy then err - dy else err
      let y' := if e2 < dx then y + sy else y
      let err' := if e2 < dx then errx + dx else errx
      match bresLoop fW fH x2 y2 sx sy dx dy fuel x' y' err' with
      | none => none
      | some rest => some (here ++ rest)

/-- `ThermalEngine::getLinePixels` with its initialization
(`dx = |x2-x1|`, `dy = |y2-y1|`, the step signs, `err = dx - dy`), run
with fuel `dx + dy + 1`, which the termination theorem shows suffices. -/
def getLinePixelsOpt (fW fH x1 y1 x2 y2 : ℤ) : Option (List (ℤ × ℤ)) :=
  let dx := |x2 - x1|
  let dy := |y2 - y1|
  let sx : ℤ := if x1 < x2 then 1 else -1
  let sy : ℤ := if y1 < y2 then 1 else -1
  bresLoop fW fH x2 y2 sx sy dx dy
    ((x2 - x1).natAbs + (y2 - y1).natAbs + 1) x1 y1 (dx - dy)

/-- The pixel list `ThermalEngine::getLinePixels` returns. -/
def getLinePixels (fW fH x1 y1 x2 y2 : ℤ) : List (ℤ × ℤ) :=
  (getLinePixelsOpt fW fH x1 y1 x2 y2).getD []

/-! ## Line analysis (`analyzeLine`) -/

/-- `ThermalEngine::analyzeLine`: fetch the frame (an empty frame aborts
with an empty list), rasterize the segment against the recorded member
dimensions, read each pixel's BGR triple, resolve `(r, g, b)` and
substitute `0.0` for any negative resolved temperature (`temp >= 0` is
the source's check). -/
def analyzeLine (s : Engine) (frameNumber x1 y1 x2 y2 : ℤ) :
    Engine × List ℚ :=
  let r := getFrame s frameNumber
  match r.2 with
  | none => (r.1, [])
  | some frame =>
    let pixels := getLinePixels r.1.frameWidth r.1.frameHeight x1 y1 x2 y2
    (r.1, pixels.map (fun p =>
      let c := frame.px p.2 p.1
      let temp := getPixelTemperature r.1.tempMapping c.2.2 c.2.1 c.1
      if 0 ≤ temp then temp else 0))

/-! ## Concrete instances used by counterexamples and witnesses -/

/-- A freshly constructed engine (the `ThermalEngine()` constructor with
no video loaded). -/
def engine0 : Engine :=
  { cap := none, tempMapping := [], currentFrame := none, totalFrames := 0,
    fps := 0, frameWidth := 0, frameHeight := 0, lastFrameNumber := -1 }

/-- The header line `X,Y,R,G,B,T` (skipped by the loader). -/
def hdrRow : List Char := ['X', ',', 'Y', ',', 'R', ',', 'G', ',', 'B', ',', 'T']

/-- Calibration file defining only color (1,2,3): `0,0,1,2,3,50`. -/
def fileA : List (List Char) :=
  [hdrRow, ['0', ',', '0', ',', '1', ',', '2', ',', '3', ',', '5', '0']]

/-- Calibration file defining only color (4,5,6): `0,0,4,5,6,60`. -/
def fileB : List (List Char) :=
  [hdrRow, ['0', ',', '0', ',', '4', ',', '5', ',', '6', ',', '6', '0']]

/-- A 1×1 frame whose only pixel is BGR (30, 20, 10), i.e. RGB (10, 20, 30). -/
def frameC3 : Frame := ⟨fun _ _ => (30, 20, 10)⟩

/-- A video source that always decodes `frameC3`. -/
def capC3 : CapModel := ⟨fun _ => some frameC3⟩

/-- A loaded engine whose calibration maps color (10, 20, 30) to the
genuine negative temperature −5 °C, over a 1×1 single-frame video. -/
def engineC3 : Engine :=
  { cap := some capC3, tempMapping := [(packRGB 10 20 30, -5)],
    currentFrame := none, totalFrames := 1, fps := 0, frameWidth := 1,
    frameHeight := 1, lastFrameNumber := -1 }

/-- A decoded frame cached by `engineFail`. -/
def frameF0 : Frame := ⟨fun _ _ => (0, 0, 0)⟩

/-- A video source whose every decode fails. -/
def capFail : CapModel := ⟨fun _ => none⟩

/-- An engine that has frame 0 cached and whose next decode will fail. -/
def engineFail : Engine :=
  { cap := some capFail, tempMapping := [], currentFrame := some frameF0,
    totalFrames := 2, fps := 0, frameWidth := 4, frameHeight := 4,
    lastFrameNumber := 0 }

/-- A two-entry calibration table: pure red → 1000 °C, pure green →
500 °C (the §8 scenario table). -/
def tableW : TempMap :=
  [(packRGB 255 0 0, 1000), (packRGB 0 255 0, 500)]

/-! ## Key packing: helper lemmas and claim C8 -/

theorem shiftLeft_lor_eq_add (x b k : ℕ) (h : b < 2 ^ k) :
    (x <<< k) ||| b = x * 2 ^ k + b := by
  calc (x <<< k) ||| b = 2 ^ k * x ||| b := by rw [Nat.shiftLeft_eq, mul_comm]
    _ = 2 ^ k * x + b := (Nat.mul_add_lt_is_or h x).symm
    _ = x * 2 ^ k + b := by ring

theorem packRGB_eq_add (r g b : ℕ) (hg : g ≤ 255) (hb : b ≤ 255) :
    packRGB r g b = r * 65536 + g * 256 + b := by
  unfold packRGB
  rw [Nat.lor_assoc]
  rw [shiftLeft_lor_eq_add g b 8 (by omega)]
  rw [show (2 : ℕ) ^ 8 = 256 by norm_num]
  rw [shiftLeft_lor_eq_add r (g * 256 + b) 16 (by norm_num; omega)]
  rw [show (2 : ℕ) ^ 16 = 65536 by norm_num]
  ring

/-- C8: for all channel values r, g, b in [0, 255], unpacking the packed
24-bit key `(r << 16) | (g << 8) | b` with the shifts and masks used by
the resolver's scan reproduces exactly (r, g, b). -/
theorem unpack_packRGB (r g b : ℕ) (hr : r ≤ 255) (hg : g ≤ 255)
    (hb : b ≤ 255) :
    unpackR (packRGB r g b) = r ∧ unpackG (packRGB r g b) = g ∧
      unpackB (packRGB r g b) = b := by
  rw [packRGB_eq_add r g b hg hb]
  unfold unpackR unpackG unpackB
  rw [show (255 : ℕ) = 2 ^ 8 - 1 by norm_num]
  simp only [Nat.shiftRight_eq_div_pow, Nat.and_pow_two_sub_one_eq_mod]
  norm_num
  omega

/-- Witness for C8 at the concrete channel triple (12, 34, 56). -/
theorem unpack_packRGB_witness :
    unpackR (packRGB 12 34 56) = 12 ∧ unpackG (packRGB 12 34 56) = 34 ∧
      unpackB (packRGB 12 34 56) = 56 :=
  unpack_packRGB 12 34 56 (by decide) (by decide) (by decide)

/-! ## Calibration loading: claims C1 and C10 -/

theorem lookup_insertTM (m : TempMap) (k k' : ℕ) (v : ℚ) :
    List.lookup k (insertTM m k' v) =
      if k = k' then some v else List.lookup k m := by
  induction m with
  | nil =>
    by_cases h : k = k'
    · simp [insertTM, List.lookup, h]
    · simp [insertTM, List.lookup, h, beq_eq_false_iff_ne.mpr h]
  | cons hd tl ih =>
    obtain ⟨a, b⟩ := hd
    by_cases ha : a = k'
    · subst ha
      by_cases hk : k = a
      · simp [insertTM, List.lookup, hk]
      · simp [insertTM, List.lookup, hk, beq_eq_false_iff_ne.mpr hk]
    · by_cases hk : k = a
      · subst hk
        have hkk' : ¬k = k' := ha
        simp [insertTM, List.lookup, ha, hkk']
      · simp [insertTM, List.lookup, ha, beq_eq_false_iff_ne.mpr hk, ih]

theorem lookup_foldl_loadRowStep (body : List (List Char)) (m0 : TempMap)
    (c0 : ℕ) (k : ℕ) :
    List.lookup k (body.foldl loadRowStep (m0, c0)).1 =
      match lastParsed body k with
      | some v => some v
      | none => List.lookup k m0 := by
  induction body generalizing m0 c0 with
  | nil => simp [lastParsed]
  | cons line rest ih =>
    rw [List.foldl_cons]
    rcases hp : parseRow line with _ | ⟨kk, vv⟩
    · rw [show loadRowStep (m0, c0) line = (m0, c0) by simp [loadRowStep, hp]]
      rw [ih]
      rcases hl : lastParsed rest k with _ | v <;> simp [lastParsed, hp, hl]
    · rw [show loadRowStep (m0, c0) line = (insertTM m0 kk vv, c0 + 1) by
        simp [loadRowStep, hp]]
      rw [ih]
      rcases hl : lastParsed rest k with _ | v
      · simp only [lastParsed, hl, hp, lookup_insertTM]
        by_cases hk : kk = k
        · subst hk
          simp
        · simp [hk, Ne.symm hk]
      · simp [lastParsed, hl]

/-- C1 counterexample: loading `fileA` (defining only color (1,2,3)) and
then successfully loading `fileB` (defining only color (4,5,6)) leaves
the (1,2,3) entry of the first load in the table, although `fileB` does
not define that color — the second load does not replace the table. -/
theorem loadTempMapping_not_replacing :
    (loadTempMapping engine0 (some fileA)).2 = true ∧
    (loadTempMapping (loadTempMapping engine0 (some fileA)).1
      (some fileB)).2 = true ∧
    lastParsed (fileB.drop 1) (packRGB 1 2 3) = none ∧
    (List.lookup (packRGB 1 2 3)
      (loadTempMapping (loadTempMapping engine0 (some fileA)).1
        (some fileB)).1.tempMapping).isSome = true := by
  decide

/-- C1 (amended): after `loadTempMapping` on an openable file, the table
is the previous table merged with the file's parsed entries: a color key
the file defines maps to its last parsed temperature, and a color key the
file does not define keeps its previous mapping — entries from earlier
loads are not discarded. -/
theorem loadTempMapping_merges_lookup (s : Engine)
    (lines : List (List Char)) (k : ℕ) :
    List.lookup k (loadTempMapping s (some lines)).1.tempMapping =
      match lastParsed (lines.drop 1) k with
      | some v => some v
      | none => List.lookup k s.tempMapping := by
  simp only [loadTempMapping]
  exact lookup_foldl_loadRowStep (lines.drop 1) s.tempMapping 0 k

/-- C10: `loadTempMapping` modifies only the calibration table: the video
handle, cached frame, frame count, frame rate, dimensions and last-served
frame index are unchanged whether the load succeeds or fails. -/
theorem loadTempMapping_only_touches_table (s : Engine)
    (file : Option (List (List Char))) :
    (loadTempMapping s file).1.cap = s.cap ∧
    (loadTempMapping s file).1.currentFrame = s.currentFrame ∧
    (loadTempMapping s file).1.totalFrames = s.totalFrames ∧
    (loadTempMapping s file).1.fps = s.fps ∧
    (loadTempMapping s file).1.frameWidth = s.frameWidth ∧
    (loadTempMapping s file).1.frameHeight = s.frameHeight ∧
    (loadTempMapping s file).1.lastFrameNumber = s.lastFrameNumber := by
  cases file <;> simp [loadTempMapping]

/-! ## Frame cache: claim C2 -/

/-- C2 counterexample: `engineFail` has frame 0 cached (non-empty) and
its decode of frame 1 fails; the failed `getFrame 1` returns an empty
frame and leaves the last-served index alone, but the cached frame is
not the same as before the call — `cap.read(currentFrame)` emptied it. -/
theorem getFrame_decode_fail_clears_cache :
    (getFrame engineFail 1).2 = none ∧
    (getFrame engineFail 1).1.lastFrameNumber =
      engineFail.lastFrameNumber ∧
    engineFail.currentFrame = some frameF0 ∧
    (getFrame engineFail 1).1.currentFrame = none ∧
    (getFrame engineFail 1).1.currentFrame ≠ engineFail.currentFrame := by
  refine ⟨?_, ?_, rfl, ?_, ?_⟩ <;> simp [getFrame, engineFail, capFail]

/-- C2 (amended): when `getFrame` seeks to a new clamped index and the
decode fails, it returns an empty frame and does not update the
last-served index, but the cached-frame slot is overwritten with the
failed read's empty output rather than left unchanged. -/
theorem getFrame_decode_fail (s : Engine) (n : ℤ) (c : CapModel)
    (hc : s.cap = some c)
    (hne : max 0 (min n (s.totalFrames - 1)) ≠ s.lastFrameNumber)
    (hread : c.read (max 0 (min n (s.totalFrames - 1))) = none) :
    (getFrame s n).2 = none ∧
    (getFrame s n).1.lastFrameNumber = s.lastFrameNumber ∧
    (getFrame s n).1.currentFrame = none := by
  simp [getFrame, hc, hne, hread]

/-- Witness for the amended C2 on the concrete `engineFail` at index 1. -/
theorem getFrame_decode_fail_witness :
    (getFrame engineFail 1).2 = none ∧
    (getFrame engineFail 1).1.lastFrameNumber =
      engineFail.lastFrameNumber ∧
    (getFrame engineFail 1).1.currentFrame = none :=
  getFrame_decode_fail engineFail 1 capFail rfl (by decide) rfl

/-! ## Color resolution: claim C4 -/

/-- C4: if the packed key of (r, g, b) (channels in [0, 255]) is present
in the calibration table, `getPixelTemperature` returns that key's stored
temperature exactly, whatever else the table contains — the
nearest-neighbor scan is never consulted. -/
theorem getPixelTemperature_exact_match (m : TempMap) (r g b : ℕ) (t : ℚ)
    (hr : r ≤ 255) (hg : g ≤ 255) (hb : b ≤ 255)
    (h : m.lookup (packRGB r g b) = some t) :
    getPixelTemperature m r g b = t := by
  simp [getPixelTemperature, h]

/-- Witness for C4: querying pure red on the two-entry table returns its
stored 1000 °C. -/
theorem getPixelTemperature_exact_match_witness :
    getPixelTemperature tableW 255 0 0 = 1000 :=
  getPixelTemperature_exact_match tableW 255 0 0 1000 (by decide) (by decide)
    (by decide) (by decide)

/-! ## Color resolution: claim C5 -/

theorem nnScan_finds_unique (r g b : ℤ) (m : TempMap) :
    ∀ (minD : Option ℤ) (closest : ℚ) (e : ℕ × ℚ),
    (∀ v, minD = some v → 100 ≤ v) →
    e ∈ m →
    dist2 r g b e.1 < 100 →
    (∀ e' ∈ m, e' ≠ e → 100 ≤ dist2 r g b e'.1) →
    nnScan r g b m minD closest = e.2 := by
  induction m with
  | nil => intro minD closest e hmin he hclose hfar; simp at he
  | cons hd rest ih =>
    intro minD closest e hmin he hclose hfar
    obtain ⟨k, t⟩ := hd
    by_cases heq : (k, t) = e
    · have hk : k = e.1 := by rw [← heq]
      have ht : t = e.2 := by rw [← heq]
      have hd100 : dist2 r g b k < 100 := by rw [hk]; exact hclose
      rcases minD with _ | mv
      · simp [nnScan, hd100, ht]
      · have hmv : 100 ≤ mv := hmin mv rfl
        have hlt : dist2 r g b k < mv := lt_of_lt_of_le hd100 hmv
        simp [nnScan, hlt, hd100, ht]
    · have hdfar : 100 ≤ dist2 r g b k := by
        have := hfar (k, t) (List.mem_cons_self _ _) heq
        exact this
      have hrest : e ∈ rest := by
        rcases List.mem_cons.mp he with h | h
        · exact absurd h.symm heq
        · exact h
      have hfar' : ∀ e' ∈ rest, e' ≠ e → 100 ≤ dist2 r g b e'.1 :=
        fun e' h' => hfar e' (List.mem_cons_of_mem _ h')
      have hnot : ¬dist2 r g b k < 100 := not_lt.mpr hdfar
      rcases minD with _ | mv
      · simp only [nnScan, hnot, if_false]
        exact ih (some (dist2 r g b k)) t e
          (fun v hv => by cases Option.some.inj hv; exact hdfar) hrest hclose
          hfar'
      · by_cases hlt : dist2 r g b k < mv
        · simp only [nnScan, hlt, if_true, hnot, if_false]
          exact ih (some (dist2 r g b k)) t e
            (fun v hv => by cases Option.some.inj hv; exact hdfar) hrest
            hclose hfar'
        · simp only [nnScan, hlt, if_false]
          exact ih (some mv) closest e hmin hrest hclose hfar'

/-- C5: on a table whose entries are pairwise at RGB distance at least 11
(squared distance ≥ 121), a query with channels in [0, 255], no exact
match, and distance strictly below 10 (squared < 100) from exactly one
entry resolves to that entry's temperature, whatever the iteration order
of the scan (the table list is arbitrary). -/
theorem getPixelTemperature_unique_close (m : TempMap) (r g b : ℕ)
    (e : ℕ × ℚ) (hr : r ≤ 255) (hg : g ≤ 255) (hb : b ≤ 255)
    (hpw : List.Pairwise (fun a c => 121 ≤ entryDist2 a.1 c.1) m)
    (hexact : m.lookup (packRGB r g b) = none)
    (he : e ∈ m)
    (hclose : dist2 (r : ℤ) (g : ℤ) (b : ℤ) e.1 < 100)
    (hfar : ∀ e' ∈ m, e' ≠ e → 100 ≤ dist2 (r : ℤ) (g : ℤ) (b : ℤ) e'.1) :
    getPixelTemperature m r g b = e.2 := by
  simp only [getPixelTemperature, hexact]
  exact nnScan_finds_unique _ _ _ m none (-1) e (by simp) he hclose hfar

/-- Witness for C5: the query (254, 1, 1) at squared distance 3 from the
pure-red entry of the two-entry table resolves to 1000 °C. -/
theorem getPixelTemperature_unique_close_witness :
    getPixelTemperature tableW 254 1 1 = 1000 :=
  getPixelTemperature_unique_close tableW 254 1 1 (packRGB 255 0 0, 1000)
    (by decide) (by decide) (by decide) (by decide) (by decide) (by decide)
    (by decide) (by decide)

/-! ## Line rasterization: claims C6, C7 and C9 -/

theorem bresLoop_go (fW fH x1 y1 x2 y2 sx sy dx dy : ℤ)
    (hdx : 0 ≤ dx) (hdy : 0 ≤ dy)
    (hsx : sx = 1 ∨ sx = -1) (hsy : sy = 1 ∨ sy = -1)
    (hx2 : x2 = x1 + sx * dx) (hy2 : y2 = y1 + sy * dy) :
    ∀ (fuel : ℕ) (u v : ℤ), 0 ≤ u → u ≤ dx → 0 ≤ v → v ≤ dy →
      (dx - u) + (dy - v) < (fuel : ℤ) →
      ∃ l, bresLoop fW fH x2 y2 sx sy dx dy fuel (x1 + sx * u) (y1 + sy * v)
            (dx * (v + 1) - dy * (u + 1)) = some l ∧
        ((0 ≤ x2 ∧ x2 < fW ∧ 0 ≤ y2 ∧ y2 < fH) →
          l.getLast? = some (x2, y2)) ∧
        ((0 ≤ x1 + sx * u ∧ x1 + sx * u < fW ∧
            0 ≤ y1 + sy * v ∧ y1 + sy * v < fH) →
          l.head? = some (x1 + sx * u, y1 + sy * v)) ∧
        (∀ p ∈ l, 0 ≤ p.1 ∧ p.1 < fW ∧ 0 ≤ p.2 ∧ p.2 < fH) := by
  have hsx0 : sx ≠ 0 := by rcases hsx with rfl | rfl <;> norm_num
  have hsy0 : sy ≠ 0 := by rcases hsy with rfl | rfl <;> norm_num
  have hxiff : ∀ w : ℤ, x1 + sx * w = x2 ↔ w = dx := by
    intro w
    rw [hx2]
    constructor
    · intro h
      exact mul_left_cancel₀ hsx0 (by linarith)
    · rintro rfl; rfl
  have hyiff : ∀ w : ℤ, y1 + sy * w = y2 ↔ w = dy := by
    intro w
    rw [hy2]
    constructor
    · intro h
      exact mul_left_cancel₀ hsy0 (by linarith)
    · rintro rfl; rfl
  intro fuel
  induction fuel with
  | zero =>
    intro u v hu0 hud hv0 hvd hmeas
    exfalso
    simp only [Nat.cast_zero] at hmeas
    omega
  | succ n ih =>
    intro u v hu0 hud hv0 hvd hmeas
    by_cases htgt : u = dx ∧ v = dy
    · obtain ⟨rfl, rfl⟩ := htgt
      rw [← hx2, ← hy2]
      refine ⟨if 0 ≤ x2 ∧ x2 < fW ∧ 0 ≤ y2 ∧ y2 < fH then [(x2, y2)] else [],
        ?_, ?_, ?_, ?_⟩
      · simp only [bresLoop, and_self, if_true]
      · intro hb
        rw [if_pos hb]
        simp
      · intro hb
        rw [if_pos hb]
        simp
      · intro p hp
        by_cases hb : 0 ≤ x2 ∧ x2 < fW ∧ 0 ≤ y2 ∧ y2 < fH
        · rw [if_pos hb] at hp
          simp only [List.mem_singleton] at hp
          subst hp
          exact hb
        · rw [if_neg hb] at hp
          simp at hp
    · -- not at the endpoint yet: one Bresenham step
      have hnc : ¬(x1 + sx * u = x2 ∧ y1 + sy * v = y2) := by
        rw [hxiff, hyiff]; exact htgt
      have hux : 2 * (dx * (v + 1) - dy * (u + 1)) > -dy → u < dx := by
        intro hcx
        rcases lt_or_eq_of_le hud with h | h
        · exact h
        · exfalso
          subst h
          have hvlt : v < dy := by
            rcases lt_or_eq_of_le hvd with h' | h'
            · exact h'
            · exact absurd ⟨rfl, h'⟩ htgt
          have h1 : u * (v + 1) ≤ u * dy :=
            mul_le_mul_of_nonneg_left (by omega) hu0
          linarith
      have hvy : 2 * (dx * (v + 1) - dy * (u + 1)) < dx → v < dy := by
        intro hcy
        rcases lt_or_eq_of_le hvd with h | h
        · exact h
        · exfalso
          subst h
          have hult : u < dx := by
            rcases lt_or_eq_of_le hud with h' | h'
            · exact h'
            · exact absurd ⟨h', rfl⟩ htgt
          have h1 : v * (u + 1) ≤ v * dx :=
            mul_le_mul_of_nonneg_left (by omega) hv0
          linarith
      have hfire : 2 * (dx * (v + 1) - dy * (u + 1)) > -dy ∨
          2 * (dx * (v + 1) - dy * (u + 1)) < dx := by
        by_contra hno
        push_neg at hno
        obtain ⟨h1, h2⟩ := hno
        have hdd : dx ≤ -dy := le_trans h2 h1
        have hdx0 : dx = 0 := by omega
        have hdy0 : dy = 0 := by omega
        exact htgt ⟨by omega, by omega⟩
      -- the list emitted at the current point
      have hstep : ∀ (u' v' : ℤ), 0 ≤ u' → u' ≤ dx → 0 ≤ v' → v' ≤ dy →
          (dx - u') + (dy - v') < (n : ℤ) →
          ∃ l', bresLoop fW fH x2 y2 sx sy dx dy n (x1 + sx * u')
              (y1 + sy * v') (dx * (v' + 1) - dy * (u' + 1)) = some l' ∧
            ((0 ≤ x2 ∧ x2 < fW ∧ 0 ≤ y2 ∧ y2 < fH) →
              l'.getLast? = some (x2, y2)) ∧
            (∀ p ∈ l', 0 ≤ p.1 ∧ p.1 < fW ∧ 0 ≤ p.2 ∧ p.2 < fH) := by
        intro u' v' h1 h2 h3 h4 h5
        obtain ⟨l', he, hl, _, hm⟩ := ih u' v' h1 h2 h3 h4 h5
        exact ⟨l', he, hl, hm⟩
      by_cases hcx : 2 * (dx * (v + 1) - dy * (u + 1)) > -dy <;>
        by_cases hcy : 2 * (dx * (v + 1) - dy * (u + 1)) < dx
      · -- both x and y advance
        obtain ⟨l', he, hl, hm⟩ := hstep (u + 1) (v + 1) (by omega)
          (by have := hux hcx; omega) (by omega)
          (by have := hvy hcy; omega) (by omega)
        refine ⟨(if 0 ≤ x1 + sx * u ∧ x1 + sx * u < fW ∧
            0 ≤ y1 + sy * v ∧ y1 + sy * v < fH then
            [(x1 + sx * u, y1 + sy * v)] else []) ++ l', ?_, ?_, ?_, ?_⟩
        · simp only [bresLoop]
          rw [if_neg hnc, if_pos hcx, if_pos hcx, if_pos hcy, if_pos hcy]
          rw [show x1 + sx * u + sx = x1 + sx * (u + 1) by ring,
            show y1 + sy * v + sy = y1 + sy * (v + 1) by ring,
            show dx * (v + 1) - dy * (u + 1) - dy + dx =
              dx * (v + 1 + 1) - dy * (u + 1 + 1) by ring, he]
        · intro hb
          have hlast := hl hb
          have hne : l' ≠ [] := by
            intro h; rw [h] at hlast; simp at hlast
          rw [List.getLast?_append_of_ne_nil _ hne]
          exact hlast
        · intro hb
          rw [if_pos hb]
          simp
        · intro p hp
          rcases List.mem_append.mp hp with h | h
          · by_cases hb : 0 ≤ x1 + sx * u ∧ x1 + sx * u < fW ∧
                0 ≤ y1 + sy * v ∧ y1 + sy * v < fH
            · rw [if_pos hb] at h
              simp only [List.mem_singleton] at h
              subst h
              exact hb
            · rw [if_neg hb] at h
              simp at h
          · exact hm p h
      · -- only x advances
        obtain ⟨l', he, hl, hm⟩ := hstep (u + 1) v (by omega)
          (by have := hux hcx; omega) hv0 hvd (by omega)
        refine ⟨(if 0 ≤ x1 + sx * u ∧ x1 + sx * u < fW ∧
            0 ≤ y1 + sy * v ∧ y1 + sy * v < fH then
            [(x1 + sx * u, y1 + sy * v)] else []) ++ l', ?_, ?_, ?_, ?_⟩
        · simp only [bresLoop]
          rw [if_neg hnc, if_pos hcx, if_pos hcx, if_neg hcy, if_neg hcy]
          rw [show x1 + sx * u + sx = x1 + sx * (u + 1) by ring,
            show dx * (v + 1) - dy * (u + 1) - dy =
              dx * (v + 1) - dy * (u + 1 + 1) by ring, he]
        · intro hb
          have hlast := hl hb
          have hne : l' ≠ [] := by
            intro h; rw [h] at hlast; simp at hlast
          rw [List.getLast?_append_of_ne_nil _ hne]
          exact hlast
        · intro hb
          rw [if_pos hb]
          simp
        · intro p hp
          rcases List.mem_append.mp hp with h | h
          · by_cases hb : 0 ≤ x1 + sx * u ∧ x1 + sx * u < fW ∧
                0 ≤ y1 + sy * v ∧ y1 + sy * v < fH
            · rw [if_pos hb] at h
              simp only [List.mem_singleton] at h
              subst h
              exact hb
            · rw [if_neg hb] at h
              simp at h
          · exact hm p h
      · -- only y advances
        obtain ⟨l', he, hl, hm⟩ := hstep u (v + 1) hu0 hud (by omega)
          (by have := hvy hcy; omega) (by omega)
        refine ⟨(if 0 ≤ x1 + sx * u ∧ x1 + sx * u < fW ∧
            0 ≤ y1 + sy * v ∧ y1 + sy * v < fH then
            [(x1 + sx * u, y1 + sy * v)] else []) ++ l', ?_, ?_, ?_, ?_⟩
        · simp only [bresLoop]
          rw [if_neg hnc, if_neg hcx, if_neg hcx, if_pos hcy, if_pos hcy]
          rw [show y1 + sy * v + sy = y1 + sy * (v + 1) by ring,
            show dx * (v + 1) - dy * (u + 1) + dx =
              dx * (v + 1 + 1) - dy * (u + 1) by ring, he]
        · intro hb
          have hlast := hl hb
          have hne : l' ≠ [] := by
            intro h; rw [h] at hlast; simp at hlast
          rw [List.getLast?_append_of_ne_nil _ hne]
          exact hlast
        · intro hb
          rw [if_pos hb]
          simp
        · intro p hp
          rcases List.mem_append.mp hp with h | h
          · by_cases hb : 0 ≤ x1 + sx * u ∧ x1 + sx * u < fW ∧
                0 ≤ y1 + sy * v ∧ y1 + sy * v < fH
            · rw [if_pos hb] at h
              simp only [List.mem_singleton] at h
              subst h
              exact hb
            · rw [if_neg hb] at h
              simp at h
          · exact hm p h
      · exact absurd hfire (by tauto)

theorem getLinePixelsOpt_spec (fW fH x1 y1 x2 y2 : ℤ) :
    ∃ l, getLinePixelsOpt fW fH x1 y1 x2 y2 = some l ∧
      ((0 ≤ x2 ∧ x2 < fW ∧ 0 ≤ y2 ∧ y2 < fH) →
        l.getLast? = some (x2, y2)) ∧
      ((0 ≤ x1 ∧ x1 < fW ∧ 0 ≤ y1 ∧ y1 < fH) → l.head? = some (x1, y1)) ∧
      (∀ p ∈ l, 0 ≤ p.1 ∧ p.1 < fW ∧ 0 ≤ p.2 ∧ p.2 < fH) := by
  have hsx : (if x1 < x2 then (1 : ℤ) else -1) = 1 ∨
      (if x1 < x2 then (1 : ℤ) else -1) = -1 := by
    split_ifs <;> simp
  have hsy : (if y1 < y2 then (1 : ℤ) else -1) = 1 ∨
      (if y1 < y2 then (1 : ℤ) else -1) = -1 := by
    split_ifs <;> simp
  have hx2 : x2 = x1 + (if x1 < x2 then (1 : ℤ) else -1) * |x2 - x1| := by
    split_ifs with h
    · rw [abs_of_nonneg (by omega)]; ring
    · rw [abs_of_nonpos (by omega)]; ring
  have hy2 : y2 = y1 + (if y1 < y2 then (1 : ℤ) else -1) * |y2 - y1| := by
    split_ifs with h
    · rw [abs_of_nonneg (by omega)]; ring
    · rw [abs_of_nonpos (by omega)]; ring
  have hmeas : (|x2 - x1| - 0) + (|y2 - y1| - 0) <
      (((x2 - x1).natAbs + (y2 - y1).natAbs + 1 : ℕ) : ℤ) := by
    rw [Int.abs_eq_natAbs, Int.abs_eq_natAbs]
    push_cast
    omega
  obtain ⟨l, he, hl, hh, hm⟩ := bresLoop_go fW fH x1 y1 x2 y2
    (if x1 < x2 then 1 else -1) (if y1 < y2 then 1 else -1)
    |x2 - x1| |y2 - y1| (abs_nonneg _) (abs_nonneg _) hsx hsy hx2 hy2
    ((x2 - x1).natAbs + (y2 - y1).natAbs + 1) 0 0 le_rfl (by positivity)
    le_rfl (by positivity) hmeas
  simp only [mul_zero, add_zero, zero_add, mul_one] at he hl hh hm
  refine ⟨l, ?_, hl, hh, hm⟩
  simp only [getLinePixelsOpt]
  exact he

/-- C7: for every pair of integer endpoints (degenerate and out-of-bounds
ones included), the Bresenham loop of `getLinePixels` terminates: within
`dx + dy + 1` iterations the current point reaches the point equal to
(x2, y2) and the loop breaks with a result. -/
theorem getLinePixels_terminates (fW fH x1 y1 x2 y2 : ℤ) :
    ∃ l, getLinePixelsOpt fW fH x1 y1 x2 y2 = some l := by
  obtain ⟨l, he, _, _, _⟩ := getLinePixelsOpt_spec fW fH x1 y1 x2 y2
  exact ⟨l, he⟩

/-- C6: when both endpoints lie inside [0, width) × [0, height), the
rasterized sequence is non-empty, starts with (x1, y1) and ends with
(x2, y2); when moreover the endpoints coincide, it is exactly the
one-element sequence [(x1, y1)]. -/
theorem getLinePixels_endpoints (fW fH x1 y1 x2 y2 : ℤ)
    (h1 : 0 ≤ x1 ∧ x1 < fW ∧ 0 ≤ y1 ∧ y1 < fH)
    (h2 : 0 ≤ x2 ∧ x2 < fW ∧ 0 ≤ y2 ∧ y2 < fH) :
    getLinePixels fW fH x1 y1 x2 y2 ≠ [] ∧
    (getLinePixels fW fH x1 y1 x2 y2).head? = some (x1, y1) ∧
    (getLinePixels fW fH x1 y1 x2 y2).getLast? = some (x2, y2) ∧
    (x1 = x2 ∧ y1 = y2 → getLinePixels fW fH x1 y1 x2 y2 = [(x1, y1)]) := by
  obtain ⟨l, he, hl, hh, hm⟩ := getLinePixelsOpt_spec fW fH x1 y1 x2 y2
  have hg : getLinePixels fW fH x1 y1 x2 y2 = l := by
    rw [getLinePixels, he]
    rfl
  refine ⟨?_, ?_, ?_, ?_⟩
  · rw [hg]
    intro hnil
    have := hl h2
    rw [hnil] at this
    simp at this
  · rw [hg]; exact hh h1
  · rw [hg]; exact hl h2
  · rintro ⟨rfl, rfl⟩
    have hone : getLinePixelsOpt fW fH x1 y1 x1 y1 = some [(x1, y1)] := by
      simp only [getLinePixelsOpt, sub_self, abs_zero, Int.natAbs_zero,
        Nat.add_zero, Nat.zero_add]
      simp [bresLoop, h1.1, h1.2.1, h1.2.2.1, h1.2.2.2]
    rw [getLinePixels, hone]
    rfl

/-- C9: every coordinate emitted by the rasterizer satisfies
0 ≤ x < frameWidth and 0 ≤ y < frameHeight, so each pixel read that
`analyzeLine` performs on a decoded frame of the recorded dimensions is
in bounds — the out-of-bounds access case is unreachable. -/
theorem getLinePixels_in_bounds (fW fH x1 y1 x2 y2 : ℤ) (p : ℤ × ℤ)
    (hp : p ∈ getLinePixels fW fH x1 y1 x2 y2) :
    0 ≤ p.1 ∧ p.1 < fW ∧ 0 ≤ p.2 ∧ p.2 < fH := by
  obtain ⟨l, he, _, _, hm⟩ := getLinePixelsOpt_spec fW fH x1 y1 x2 y2
  rw [getLinePixels, he] at hp
  exact hm p hp

/-- Witness for C6 on a 10×10 frame with the segment (0,0)–(4,0). -/
theorem getLinePixels_endpoints_witness :
    getLinePixels 10 10 0 0 4 0 ≠ [] ∧
    (getLinePixels 10 10 0 0 4 0).head? = some (0, 0) ∧
    (getLinePixels 10 10 0 0 4 0).getLast? = some (4, 0) ∧
    ((0 : ℤ) = 4 ∧ (0 : ℤ) = 0 → getLinePixels 10 10 0 0 4 0 = [(0, 0)]) :=
  getLinePixels_endpoints 10 10 0 0 4 0 (by decide) (by decide)

/-- Witness for C9: the emitted point (2,0) of the segment (0,0)–(4,0)
on a 10×10 frame is in bounds. -/
theorem getLinePixels_in_bounds_witness :
    0 ≤ (2 : ℤ) ∧ (2 : ℤ) < 10 ∧ 0 ≤ (0 : ℤ) ∧ (0 : ℤ) < 10 :=
  getLinePixels_in_bounds 10 10 0 0 4 0 (2, 0) (by decide)

/-! ## Line analysis: claim C3 -/

/-- C3 (amended): when the frame decodes, `analyzeLine` returns exactly
one sample per in-bounds rasterized point; a sample equals the resolver's
temperature whenever that temperature is nonnegative, and is replaced by
0.0 exactly when the resolved temperature is negative — the source tests
`temp >= 0`, so the substitution hits the absent sentinel (−1) and every
genuinely calibrated negative temperature alike. -/
theorem analyzeLine_samples (s : Engine) (n x1 y1 x2 y2 : ℤ) (f : Frame)
    (hf : (getFrame s n).2 = some f) :
    ((analyzeLine s n x1 y1 x2 y2).2).length =
      (getLinePixels (getFrame s n).1.frameWidth
        (getFrame s n).1.frameHeight x1 y1 x2 y2).length ∧
    ∀ i : ℕ,
      ∀ hi : i < (getLinePixels (getFrame s n).1.frameWidth
        (getFrame s n).1.frameHeight x1 y1 x2 y2).length,
      ∀ ho : i < ((analyzeLine s n x1 y1 x2 y2).2).length,
      let p := (getLinePixels (getFrame s n).1.frameWidth
        (getFrame s n).1.frameHeight x1 y1 x2 y2).get ⟨i, hi⟩
      let c := f.px p.2 p.1
      let t := getPixelTemperature (getFrame s n).1.tempMapping c.2.2 c.2.1 c.1
      (0 ≤ t → ((analyzeLine s n x1 y1 x2 y2).2).get ⟨i, ho⟩ = t) ∧
      (t < 0 → ((analyzeLine s n x1 y1 x2 y2).2).get ⟨i, ho⟩ = 0) := by
  constructor
  · simp [analyzeLine, hf]
  · intro i hi ho p c t
    have hout : (analyzeLine s n x1 y1 x2 y2).2 =
        (getLinePixels (getFrame s n).1.frameWidth
          (getFrame s n).1.frameHeight x1 y1 x2 y2).map (fun q =>
          let cc := f.px q.2 q.1
          let tt := getPixelTemperature (getFrame s n).1.tempMapping
            cc.2.2 cc.2.1 cc.1
          if 0 ≤ tt then tt else 0) := by
      simp [analyzeLine, hf]
    constructor
    · intro ht
      have := List.get_of_eq hout ⟨i, ho⟩
      rw [this, List.get_map]
      simp only [p, c, t] at ht ⊢
      rw [if_pos ht]
    · intro ht
      have := List.get_of_eq hout ⟨i, ho⟩
      rw [this, List.get_map]
      simp only [p, c, t] at ht ⊢
      rw [if_neg (not_le.mpr ht)]

/-- Witness for the amended C3 on `engineC3` (frame decodes, one
rasterized point). -/
theorem analyzeLine_samples_witness :
    ((analyzeLine engineC3 0 0 0 0 0).2).length =
      (getLinePixels (getFrame engineC3 0).1.frameWidth
        (getFrame engineC3 0).1.frameHeight 0 0 0 0).length :=
  (analyzeLine_samples engineC3 0 0 0 0 0 frameC3 rfl).1

/-- C3 counterexample: the calibration of `engineC3` maps the queried
pixel's exact color to −5 °C (a resolved table temperature, not the
absent sentinel), yet `analyzeLine` outputs 0.0 for that sample — a
calibrated negative temperature does not appear in the output
unchanged. -/
theorem analyzeLine_drops_negative :
    engineC3.tempMapping.lookup (packRGB 10 20 30) = some (-5) ∧
    getPixelTemperature engineC3.tempMapping 10 20 30 = -5 ∧
    (analyzeLine engineC3 0 0 0 0 0).2 = [0] ∧
    (analyzeLine engineC3 0 0 0 0 0).2 ≠ [-5] := by decide
